import Mathlib

/-!
Verification of `daily_prices/generate_bitcoin_prices_kaggle.py`.

The script is embedded shallowly:

* calendar days and Unix timestamps are natural numbers (`dayOf` truncates a
  timestamp to its day, mirroring `df["Date"].dt.date`);
* a price series is a `List (Date × α)` of (date, value) rows, kept in row
  order exactly as the corresponding dataframe; the value type `α` is left
  generic (the script stores IEEE floats but the claims under verification
  only move, compare and multiply the values, so any `Mul α` instance works,
  and the rounding layer instantiates `α := ℚ`);
* a missing value (pandas `NaN`) is `Option.none`;
* `pd.merge(..., how="left")`, `Series.ffill`, `Series.bfill`,
  `DataFrame.sort_values`, `groupby(...).first()` and `DataFrame.dropna` are
  modelled row by row (`mergeLeft`, `ffill`, `bfill`, `List.insertionSort`
  by date, `load_bitcoin_daily`, the `filterMap` in
  `process_currency_dataframe`);
* `pd.to_datetime(..., errors="coerce")` and `pd.to_numeric(..., errors="coerce")`
  are abstract coercion parameters `parseD : String → Option Date` and
  `parseN : String → Option α` (`none` is `NaT`/`NaN`);
* a function that can abort (`sys.exit`) or raise into an
  `except` handler returns an `Option`.
-/

abbrev Date := Nat

/-- Model of `df["Date"].dt.date` for a Unix timestamp in seconds: truncation of the
timestamp to its calendar day (lines 62 and 70 of the script). -/
def dayOf (ts : Nat) : Nat := ts / 86400

/-- The timestamp-column selection of `load_bitcoin_data_from_kaggle`
(lines 61–67): the column named exactly `"Timestamp"`, else the column named
exactly `"timestamp"`, else abort (`sys.exit(1)` is `none`). -/
def findTimestampColumn (cols : List String) : Option String :=
  if "Timestamp" ∈ cols then some "Timestamp"
  else if "timestamp" ∈ cols then some "timestamp"
  else none

/-- Lower-case an ASCII letter; used only to state the spec's
"case-insensitive name" condition for claim C7. -/
def charLower (c : Char) : Char :=
  if 65 ≤ c.toNat ∧ c.toNat ≤ 90 then Char.ofNat (c.toNat + 32) else c

/-- Lower-case a column name; used only to state the spec's
"case-insensitive name" condition for claim C7. -/
def strLower (s : String) : String := String.mk (s.data.map charLower)

/-- The daily reduction of `load_bitcoin_data_from_kaggle` (lines 69–95):
group the (timestamp, close) rows by calendar day — pandas `groupby` sorts
the group keys ascending — keep the first row of each group
(`groupby("DateOnly").first()`), and `sort_values("Date")` at the end. -/
def load_bitcoin_daily {α : Type} (rows : List (Nat × α)) : List (Date × α) :=
  let days := ((rows.map (fun r => dayOf r.1)).dedup).insertionSort (· ≤ ·)
  let daily := days.filterMap
    (fun d => ((rows.filter (fun r => dayOf r.1 == d)).head?).map (fun r => (d, r.2)))
  daily.insertionSort (fun a b => a.1 ≤ b.1)

/-- Lines 169–171 of `process_currency_dataframe`: drop the first two rows
when the frame has more than two rows and its first cell is the literal
`"Ticker:"`. -/
def stripTickerHeader (rows : List (List String)) : List (List String) :=
  if 2 < rows.length ∧ (rows.head?.bind List.head?) = some "Ticker:" then rows.drop 2
  else rows

/-- Model of `process_currency_dataframe` (lines 166–197) on a raw frame with `ncols`
columns given as a list of rows of cells: strip the ticker header, read the
first two columns as (date, close) whatever their names, coerce both
(`errors="coerce"`), select the two columns, `dropna`, and sort by date.
Fewer than two columns makes the column selection raise a `KeyError`, which
the surrounding `except` turns into `None`. -/
def process_currency_dataframe {α : Type} (parseD : String → Option Date)
    (parseN : String → Option α) (ncols : Nat) (rows : List (List String)) :
    Option (List (Date × α)) :=
  if ncols < 2 then none
  else
    let rows := stripTickerHeader rows
    let dateCol := rows.map (fun r => r.head?.bind parseD)
    let closeCol := rows.map (fun r => (r.drop 1).head?.bind parseN)
    let kept := (dateCol.zip closeCol).filterMap
      (fun x => x.1.bind (fun d => x.2.map (fun v => (d, v))))
    some (kept.insertionSort (fun a b => a.1 ≤ b.1))

/-- Row-wise description of the coercion pipeline of
`process_currency_dataframe`: a row survives `dropna` exactly when both of
its first two cells coerce, and contributes its coerced (date, close) pair.
Used to state claim C8. -/
def coerceRows {α : Type} (parseD : String → Option Date) (parseN : String → Option α)
    (rows : List (List String)) : List (Date × α) :=
  rows.filterMap
    (fun r => (r.head?.bind parseD).bind
      (fun d => ((r.drop 1).head?.bind parseN).map (fun v => (d, v))))

/-- The value a left merge on `"Date"` picks from the rate frame `c` for an
anchor date `d`: the first row of `c` carrying `d`, if any. -/
def lookupRate {α : Type} (c : List (Date × α)) (d : Date) : Option α :=
  ((c.filter (fun q => q.1 == d)).head?).map Prod.snd

/-- Model of `pd.merge(bitcoin_df, currency_df, on="Date", how="left")` (line 206):
every Bitcoin row is kept; a Bitcoin row is paired with every rate row of
equal date, or with a `NaN` rate when no rate row matches. -/
def mergeLeft {α : Type} (b : List (Date × α)) (c : List (Date × α)) :
    List (Date × α × Option α) :=
  b.flatMap (fun p =>
    let ms := c.filter (fun q => q.1 == p.1)
    if ms.isEmpty then [(p.1, p.2, none)] else ms.map (fun q => (p.1, p.2, some q.2)))

/-- Recursion of `Series.ffill` with the running last observed value as accumulator. -/
def ffillGo {α : Type} (acc : Option α) : List (Option α) → List (Option α)
  | [] => []
  | none :: xs => acc :: ffillGo acc xs
  | some v :: xs => some v :: ffillGo (some v) xs

/-- Model of `Series.ffill` (line 209): each missing entry takes the nearest earlier
present value. -/
def ffill {α : Type} (xs : List (Option α)) : List (Option α) := ffillGo none xs

/-- First present value of a column. -/
def ofirst {α : Type} (xs : List (Option α)) : Option α := (xs.filterMap id).head?

/-- Last present value of a column. -/
def olast {α : Type} (xs : List (Option α)) : Option α := (xs.filterMap id).getLast?

/-- Model of `Series.bfill` (line 212): each missing entry takes the nearest later
present value. -/
def bfill {α : Type} : List (Option α) → List (Option α)
  | [] => []
  | x :: xs => (match x with | some v => some v | none => ofirst xs) :: bfill xs

/-- The rate column of `calculate_bitcoin_prices` after line 212: the merged
`<code>_Rate` column with `ffill` then `bfill` applied. -/
def filledRateColumn {α : Type} (b c : List (Date × α)) : List (Option α) :=
  bfill (ffill ((mergeLeft b (c.insertionSort (fun a b => a.1 ≤ b.1))).map (fun r => r.2.2)))

/-- Everything `calculate_bitcoin_prices` (lines 200–228) produces: the
`[["Date", f"BTC_{currency_code}"]]` frame and the counts of its diagnostic
print. -/
structure CalcResult (α : Type) where
  result : List (Date × Option α)
  filledCount : Nat
  totalCount : Nat
  actualData : Int

/-- Model of `calculate_bitcoin_prices` (lines 200–228): sort the rate frame by date,
left-merge onto the Bitcoin frame, `ffill` then `bfill` the rate column,
multiply `BTC_USD` by the filled rate (`NaN` propagates through the
product), keep date and price, and count the entries of the rate column
that are still missing (`isna` is taken after both fills) against the total. -/
def calculate_bitcoin_prices {α : Type} [Mul α] (bitcoin currency : List (Date × α)) :
    CalcResult α :=
  let currency := currency.insertionSort (fun a b => a.1 ≤ b.1)
  let merged := mergeLeft bitcoin currency
  let rates := bfill (ffill (merged.map (fun r => r.2.2)))
  let result := List.zipWith
    (fun (r : Date × α × Option α) (v : Option α) => (r.1, v.map (fun x => r.2.1 * x)))
    merged rates
  let filledCount := (rates.filter (fun v => v.isNone)).length
  let totalCount := result.length
  { result := result, filledCount := filledCount, totalCount := totalCount,
    actualData := (totalCount : Int) - (filledCount : Int) }

/-- The output price of `calculate_bitcoin_prices` at an anchor date: the
price carried by the first result row of that date. -/
def priceAt {α : Type} [Mul α] (b c : List (Date × α)) (d : Date) : Option α :=
  (((calculate_bitcoin_prices b c).result.filter (fun q => q.1 == d)).head?).bind Prod.snd

/-- The anchor dates that have an exact-date match in the rate series, in
anchor order. -/
def matchedDates {α : Type} (b c : List (Date × α)) : List Date :=
  (b.map Prod.fst).filter (fun d => (lookupRate c d).isSome)

/-- The list `SUPPORTED_CURRENCIES` (lines 14–27). -/
def SUPPORTED_CURRENCIES : List String :=
  ["USD", "EUR", "GBP", "JPY", "CAD", "AUD", "CHF", "CNY", "INR", "BRL", "KRW", "MXN"]

/-- The keys of `currency_files` (lines 114–126): the currencies for which
`load_currency_data_from_kaggle` knows a source file. -/
def CURRENCY_FILE_CODES : List String :=
  ["EUR", "GBP", "JPY", "CAD", "AUD", "CHF", "CNY", "INR", "BRL", "KRW", "MXN"]

/-- Model of `load_currency_data_from_kaggle` (lines 107–163) with the downloaded
files abstracted into `files : code ↦ Option (column count, rows)` (`none`
is a missing file). A currency enters the returned dictionary exactly when
its file exists and `process_currency_dataframe` returns a frame; a raised
error (`none` from processing) only skips that currency. -/
def load_currency_data {α : Type} (parseD : String → Option Date) (parseN : String → Option α)
    (files : String → Option (Nat × List (List String))) :
    String → Option (List (Date × α)) :=
  fun code =>
    if code ∈ CURRENCY_FILE_CODES then
      (files code).bind (fun raw => process_currency_dataframe parseD parseN raw.1 raw.2)
    else none

/-- A wide dataframe: the non-`Date` column names in order, and one row per
date holding one optional value per column. -/
structure DF (α : Type) where
  cols : List String
  rows : List (Date × List (Option α))

/-- Model of `pd.merge(result_df, currency_prices, on="Date", how="left")` (line 268)
for a right frame that carries one column: every existing row gains the
value of the first right row of equal date. -/
def mergeLeftCol {α : Type} (t : DF α) (name : String) (col : List (Date × Option α)) : DF α :=
  ⟨t.cols ++ [name],
   t.rows.map (fun r => (r.1, r.2 ++ [((col.filter (fun q => q.1 == r.1)).head?).bind Prod.snd]))⟩

/-- The per-currency loop of `main` (lines 242–268): start from the Bitcoin
frame as the `BTC_USD` column, and for every supported non-USD currency that
made it into the dictionary, left-merge the `calculate_bitcoin_prices`
result onto the running frame. -/
def main_table {α : Type} [Mul α] (bitcoin : List (Date × α))
    (dict : String → Option (List (Date × α))) : DF α :=
  SUPPORTED_CURRENCIES.foldl
    (fun acc code =>
      if code = "USD" then acc
      else
        match dict code with
        | none => acc
        | some cdf => mergeLeftCol acc ("BTC_" ++ code) (calculate_bitcoin_prices bitcoin cdf).result)
    ⟨["BTC_USD"], bitcoin.map (fun p => (p.1, [some p.2]))⟩

/-- Does `startOf` begin `l`? Character-list model of Python's `in` on
strings. -/
def chStarts : List Char → List Char → Bool
  | [], _ => true
  | _ :: _, [] => false
  | a :: as, b :: bs => a == b && chStarts as bs

/-- Does `needle` occur inside `hay`? -/
def chContains : List Char → List Char → Bool
  | n, [] => n.isEmpty
  | n, c :: cs => chStarts n (c :: cs) || chContains n cs

/-- Python's `needle in hay` on strings. -/
def containsSub (needle hay : String) : Bool := chContains needle.data hay.data

/-- The column filter of the rounding loop (line 272):
`col != "Date" and "BTC_" in col`. -/
def shouldRound (col : String) : Bool := (col != "Date") && containsSub "BTC_" col

/-- Round-half-to-even to an integer, the rounding mode of
`numpy.round`/`Series.round`. -/
def roundHalfEven (x : ℚ) : ℤ :=
  if x - ⌊x⌋ < 1/2 then ⌊x⌋
  else if 1/2 < x - ⌊x⌋ then ⌊x⌋ + 1
  else if ⌊x⌋ % 2 = 0 then ⌊x⌋ else ⌊x⌋ + 1

/-- Model of `Series.round(d)`: round-half-even at `d` decimal places. -/
def roundTo (d : Nat) (x : ℚ) : ℚ := (roundHalfEven (x * 10 ^ d) : ℚ) / 10 ^ d

/-- The per-column rounding of `main` (lines 273–277): zero decimals when
the column name contains `"JPY"` or `"KRW"`, two decimals otherwise. -/
def roundValue (col : String) (x : ℚ) : ℚ :=
  if containsSub "JPY" col || containsSub "KRW" col then roundTo 0 x else roundTo 2 x

/-- The rounding loop of `main` (lines 270–277) over a wide frame. -/
def roundDF (t : DF ℚ) : DF ℚ :=
  ⟨t.cols,
   t.rows.map (fun r =>
     (r.1, (t.cols.zip r.2).map
       (fun cv => if shouldRound cv.1 then cv.2.map (roundValue cv.1) else cv.2)))⟩

/-- Model of `result_df.sort_values("Date", ascending=False)` (line 280). -/
def sortRowsDesc (t : DF ℚ) : DF ℚ :=
  ⟨t.cols, t.rows.insertionSort (fun a b => b.1 ≤ a.1)⟩

/-- The output-producing part of `main` (lines 231–287): assemble the wide
frame, round, and sort newest-first (the `Date` string formatting and the
CSV write are I/O). -/
def main_output (parseD : String → Option Date) (parseN : String → Option ℚ)
    (bitcoin : List (Date × ℚ)) (files : String → Option (Nat × List (List String))) : DF ℚ :=
  sortRowsDesc (roundDF (main_table bitcoin (load_currency_data parseD parseN files)))


theorem ffillGo_length {α : Type} (acc : Option α) (xs : List (Option α)) :
    (ffillGo acc xs).length = xs.length := by
  induction xs generalizing acc with
  | nil => rfl
  | cons x t ih => cases x <;> simp [ffillGo, ih]

theorem ffill_length {α : Type} (xs : List (Option α)) : (ffill xs).length = xs.length :=
  ffillGo_length none xs

theorem bfill_length {α : Type} (xs : List (Option α)) : (bfill xs).length = xs.length := by
  induction xs with
  | nil => rfl
  | cons x t ih => simp [bfill, ih]

theorem getLast?_cons_or {α : Type} (a : α) (l : List α) :
    (a :: l).getLast? = (l.getLast?).or (some a) := by
  induction l generalizing a with
  | nil => rfl
  | cons b t ih =>
    rw [List.getLast?_cons_cons, ih b]
    cases t.getLast? <;> rfl

theorem olast_nil {α : Type} : olast ([] : List (Option α)) = none := rfl

theorem ofirst_nil {α : Type} : ofirst ([] : List (Option α)) = none := rfl

theorem olast_cons_none {α : Type} (t : List (Option α)) : olast (none :: t) = olast t := by
  simp [olast]

theorem olast_cons_some {α : Type} (v : α) (t : List (Option α)) :
    olast (some v :: t) = (olast t).or (some v) := by
  simp [olast, getLast?_cons_or]

theorem ofirst_cons_none {α : Type} (t : List (Option α)) : ofirst (none :: t) = ofirst t := by
  simp [ofirst]

theorem ofirst_cons_some {α : Type} (v : α) (t : List (Option α)) :
    ofirst (some v :: t) = some v := by
  simp [ofirst]

theorem ofirst_ffillGo_none {α : Type} (t : List (Option α)) :
    ofirst (ffillGo none t) = ofirst t := by
  induction t with
  | nil => rfl
  | cons x t ih =>
    cases x with
    | none => simpa [ffillGo, ofirst_cons_none] using ih
    | some v => simp [ffillGo, ofirst_cons_some]

theorem olast_eq_none_iff {α : Type} (xs : List (Option α)) :
    olast xs = none ↔ ∀ o ∈ xs, o = none := by
  simp [olast, List.getLast?_eq_none_iff, List.filterMap_eq_nil_iff]

theorem ofirst_eq_none_iff {α : Type} (xs : List (Option α)) :
    ofirst xs = none ↔ ∀ o ∈ xs, o = none := by
  simp [ofirst, List.head?_eq_none_iff, List.filterMap_eq_nil_iff]

/-- Value of the rate column after `ffill` then `bfill`, with the running
`ffill` accumulator made explicit: position `i` carries the last present
value at or before `i`, else the accumulator, else the first present value
after `i`. -/
theorem bfill_ffillGo_getElem {α : Type} (t : List (Option α)) (acc : Option α) (i : Nat)
    (h : i < t.length) :
    (bfill (ffillGo acc t))[i]? =
      some ((olast (t.take (i+1))).or (acc.or (ofirst (t.drop (i+1))))) := by
  induction t generalizing acc i with
  | nil => simp at h
  | cons x t ih =>
    cases x with
    | some v =>
      have e1 : ffillGo acc (some v :: t) = some v :: ffillGo (some v) t := rfl
      have e2 : bfill (some v :: ffillGo (some v) t)
          = some v :: bfill (ffillGo (some v) t) := rfl
      cases i with
      | zero =>
        rw [e1, e2, List.getElem?_cons_zero, List.take_succ_cons, List.take_zero,
          List.drop_succ_cons, List.drop_zero, olast_cons_some, olast_nil]
        rfl
      | succ i =>
        have h' : i < t.length := by simpa using h
        rw [e1, e2, List.getElem?_cons_succ, ih (some v) i h', List.take_succ_cons,
          List.drop_succ_cons, olast_cons_some]
        cases olast (t.take (i+1)) <;> rfl
    | none =>
      have e1 : ffillGo acc (none :: t) = acc :: ffillGo acc t := rfl
      cases acc with
      | some a =>
        have e2 : bfill (some a :: ffillGo (some a) t)
            = some a :: bfill (ffillGo (some a) t) := rfl
        cases i with
        | zero =>
          rw [e1, e2, List.getElem?_cons_zero, List.take_succ_cons, List.take_zero,
            List.drop_succ_cons, List.drop_zero, olast_cons_none, olast_nil]
          rfl
        | succ i =>
          have h' : i < t.length := by simpa using h
          rw [e1, e2, List.getElem?_cons_succ, ih (some a) i h', List.take_succ_cons,
            List.drop_succ_cons, olast_cons_none]
      | none =>
        have e2 : bfill (none :: ffillGo none t)
            = ofirst (ffillGo none t) :: bfill (ffillGo none t) := rfl
        cases i with
        | zero =>
          rw [e1, e2, List.getElem?_cons_zero, ofirst_ffillGo_none, List.take_succ_cons,
            List.take_zero, List.drop_succ_cons, List.drop_zero, olast_cons_none, olast_nil]
          rfl
        | succ i =>
          have h' : i < t.length := by simpa using h
          rw [e1, e2, List.getElem?_cons_succ, ih none i h', List.take_succ_cons,
            List.drop_succ_cons, olast_cons_none]

/-- Value of the rate column of `calculate_bitcoin_prices` after line 212:
position `i` carries the last present value at or before `i`, else the first
present value after `i`. -/
theorem bfill_ffill_getElem {α : Type} (xs : List (Option α)) (i : Nat) (h : i < xs.length) :
    (bfill (ffill xs))[i]? = some ((olast (xs.take (i+1))).or (ofirst (xs.drop (i+1)))) := by
  rw [ffill, bfill_ffillGo_getElem xs none i h, Option.none_or]

/-- Under unique rate dates, a date filter on the rate frame finds at most
one row. -/
theorem filter_key_nodup {α : Type} (c : List (Date × α))
    (hc : (c.map Prod.fst).Nodup) (d : Date) :
    c.filter (fun q => q.1 == d) = [] ∨ ∃ q, c.filter (fun q => q.1 == d) = [q] := by
  induction c with
  | nil => exact Or.inl rfl
  | cons a t ih =>
    rw [List.map_cons, List.nodup_cons] at hc
    by_cases hd : a.1 = d
    · right
      refine ⟨a, ?_⟩
      have ht : t.filter (fun q => q.1 == d) = [] := by
        rw [List.filter_eq_nil_iff]
        intro q hq
        simp only [beq_iff_eq]
        intro hqd
        exact hc.1 (hd ▸ hqd ▸ List.mem_map_of_mem Prod.fst hq)
      simp [List.filter_cons, hd, ht]
    · have : (a.1 == d) = false := by simpa using hd
      rw [List.filter_cons, this]
      simpa using ih hc.2

/-- Under unique rate dates, the left merge of line 206 keeps exactly one
output row per Bitcoin row, carrying that row's date and value and the rate
found at that exact date. -/
theorem mergeLeft_eq_map {α : Type} (b c : List (Date × α))
    (hc : (c.map Prod.fst).Nodup) :
    mergeLeft b c = b.map (fun p => (p.1, p.2, lookupRate c p.1)) := by
  induction b with
  | nil => rfl
  | cons p t ih =>
    rw [mergeLeft, List.flatMap_cons, ← mergeLeft, ih, List.map_cons]
    rcases filter_key_nodup c hc p.1 with he | ⟨q, hq⟩
    · simp [he, lookupRate]
    · simp [hq, lookupRate]

/-- The lookup `lookupRate` does not depend on row order when the rate dates are
unique. -/
theorem lookupRate_perm {α : Type} {c c' : List (Date × α)} (hp : c.Perm c')
    (hc : (c.map Prod.fst).Nodup) (d : Date) :
    lookupRate c' d = lookupRate c d := by
  have hf := hp.filter (fun q => q.1 == d)
  rcases filter_key_nodup c hc d with he | ⟨q, hq⟩
  · rw [he] at hf
    rw [lookupRate, lookupRate, he, List.perm_nil.mp hf.symm]
  · rw [hq] at hf
    rw [lookupRate, lookupRate, hq, (List.singleton_perm.mp hf).symm]

theorem sort_map_fst_nodup {α : Type} (c : List (Date × α)) (hc : (c.map Prod.fst).Nodup) :
    ((c.insertionSort (fun a b => a.1 ≤ b.1)).map Prod.fst).Nodup :=
  ((List.perm_insertionSort (fun a b : Date × α => a.1 ≤ b.1) c).map Prod.fst).nodup_iff.mpr hc

/-- Under unique rate dates the filled rate column is the `ffill`-`bfill`
closure of the exact-date lookups along the Bitcoin rows. -/
theorem filledRateColumn_eq {α : Type} (b c : List (Date × α))
    (hc : (c.map Prod.fst).Nodup) :
    filledRateColumn b c = bfill (ffill (b.map (fun p => lookupRate c p.1))) := by
  have hperm := List.perm_insertionSort (fun a b : Date × α => a.1 ≤ b.1) c
  rw [filledRateColumn, mergeLeft_eq_map b _ (sort_map_fst_nodup c hc), List.map_map]
  have : ((fun r : Date × α × Option α => r.2.2) ∘
      (fun p : Date × α => (p.1, p.2, lookupRate (c.insertionSort (fun a b => a.1 ≤ b.1)) p.1)))
      = fun p : Date × α => lookupRate c p.1 := by
    funext p
    exact lookupRate_perm hperm.symm hc p.1
  rw [this]

theorem filledRateColumn_length {α : Type} (b c : List (Date × α))
    (hc : (c.map Prod.fst).Nodup) :
    (filledRateColumn b c).length = b.length := by
  rw [filledRateColumn_eq b c hc, bfill_length, ffill_length, List.length_map]

/-- Under unique rate dates, the frame returned by
`calculate_bitcoin_prices` pairs each Bitcoin row in order with its Bitcoin
value times the filled rate (`NaN` price exactly where the filled rate is
still `NaN`). -/
theorem calculate_result_eq {α : Type} [Mul α] (b c : List (Date × α))
    (hc : (c.map Prod.fst).Nodup) :
    (calculate_bitcoin_prices b c).result =
      List.zipWith (fun (p : Date × α) (v : Option α) => (p.1, v.map (fun x => p.2 * x)))
        b (filledRateColumn b c) := by
  rw [filledRateColumn_eq b c hc, calculate_bitcoin_prices]
  simp only
  rw [mergeLeft_eq_map b _ (sort_map_fst_nodup c hc), List.map_map, List.zipWith_map_left]
  have hfun : ((fun r : Date × α × Option α => r.2.2) ∘
      (fun p : Date × α => (p.1, p.2, lookupRate (c.insertionSort (fun a b => a.1 ≤ b.1)) p.1)))
      = fun p : Date × α => lookupRate c p.1 := by
    funext p
    exact lookupRate_perm (List.perm_insertionSort (fun a b : Date × α => a.1 ≤ b.1) c).symm hc p.1
  rw [hfun]

theorem zipWith_keyed_map_fst {α β γ : Type} (f : Date × α → β → γ)
    (b : List (Date × α)) (rs : List β) (h : b.length ≤ rs.length) :
    (List.zipWith (fun p v => (p.1, f p v)) b rs).map Prod.fst = b.map Prod.fst := by
  induction b generalizing rs with
  | nil => rfl
  | cons p t ih =>
    cases rs with
    | nil => simp at h
    | cons r rt => simp [ih rt (by simpa using h)]

/-- Claim C1: with unique dates on both inputs, the result of
`calculate_bitcoin_prices` carries exactly the Bitcoin dates, in order: its
date column is the Bitcoin date column, each Bitcoin date appears exactly
once, and no other date appears — whatever dates the rate series covers. -/
theorem c1_domain_invariance {α : Type} [Mul α] (b c : List (Date × α))
    (hb : (b.map Prod.fst).Nodup) (hc : (c.map Prod.fst).Nodup) :
    ((calculate_bitcoin_prices b c).result.map Prod.fst = b.map Prod.fst) ∧
    (∀ d ∈ b.map Prod.fst, ((calculate_bitcoin_prices b c).result.map Prod.fst).count d = 1) ∧
    (∀ d ∈ (calculate_bitcoin_prices b c).result.map Prod.fst, d ∈ b.map Prod.fst) := by
  have he : (calculate_bitcoin_prices b c).result.map Prod.fst = b.map Prod.fst := by
    rw [calculate_result_eq b c hc]
    exact zipWith_keyed_map_fst _ b _ (le_of_eq (filledRateColumn_length b c hc).symm)
  refine ⟨he, fun d hd => ?_, fun d hd => ?_⟩
  · rw [he]
    exact List.count_eq_one_of_mem hb hd
  · rwa [he] at hd

/-- Witness for C1 at a Bitcoin series of two dates and a rate series whose
single date is disjoint from them. -/
theorem c1_domain_invariance_witness :
    ((([((1:Date), (2:ℤ)), (2, 3)].map Prod.fst).Nodup ∧
        (([((5:Date), (4:ℤ))].map Prod.fst).Nodup)) ∧
      (calculate_bitcoin_prices [((1:Date), (2:ℤ)), (2, 3)] [(5, 4)]).result.map Prod.fst
        = [((1:Date), (2:ℤ)), (2, 3)].map Prod.fst) :=
  ⟨⟨by decide, by decide⟩,
    (c1_domain_invariance [((1:Date), (2:ℤ)), (2, 3)] [(5, 4)] (by decide) (by decide)).1⟩

/-- When some entry of the rate column is present, every entry of the
filled rate column is present. -/
theorem fill_entry_some {α : Type} (xs : List (Option α)) (hx : ∃ o ∈ xs, o.isSome)
    (i : Nat) (h : i < xs.length) : ∃ v, (bfill (ffill xs))[i]? = some (some v) := by
  rw [bfill_ffill_getElem xs i h]
  cases ho : olast (xs.take (i+1)) with
  | some v => exact ⟨v, rfl⟩
  | none =>
    cases hd : ofirst (xs.drop (i+1)) with
    | some v => exact ⟨v, rfl⟩
    | none =>
      exfalso
      obtain ⟨o, hmem, hsome⟩ := hx
      have hsplit : o ∈ xs.take (i+1) ∨ o ∈ xs.drop (i+1) := by
        rw [← List.mem_append, List.take_append_drop]
        exact hmem
      rcases hsplit with hm | hm
      · rw [(olast_eq_none_iff _).mp ho o hm] at hsome
        simp at hsome
      · rw [(ofirst_eq_none_iff _).mp hd o hm] at hsome
        simp at hsome

/-- When every entry of the rate column is missing, every entry of the
filled rate column is still missing. -/
theorem fill_entry_none {α : Type} (xs : List (Option α)) (hx : ∀ o ∈ xs, o = none)
    (i : Nat) (h : i < xs.length) : (bfill (ffill xs))[i]? = some none := by
  rw [bfill_ffill_getElem xs i h]
  rw [(olast_eq_none_iff _).mpr fun o hm => hx o (List.mem_of_mem_take hm),
    (ofirst_eq_none_iff _).mpr fun o hm => hx o (List.mem_of_mem_drop hm)]
  rfl

/-- Claim C3 (amended): the result of `calculate_bitcoin_prices` pairs each
Bitcoin date with `BTC_USD(date) * filled_rate(date)`; when at least one
anchor date has an exact-date match in the rate series the filled rate, and
with it every derived price, is defined; when no anchor date has a match —
in particular when the rate series is empty — every derived price is
undefined. -/
theorem c3_price_defined_iff_match {α : Type} [Mul α] (b c : List (Date × α))
    (hc : (c.map Prod.fst).Nodup) :
    ((calculate_bitcoin_prices b c).result =
      List.zipWith (fun (p : Date × α) (v : Option α) => (p.1, v.map (fun x => p.2 * x)))
        b (filledRateColumn b c)) ∧
    ((∃ p ∈ b, (lookupRate c p.1).isSome) →
      ∀ q ∈ (calculate_bitcoin_prices b c).result, q.2.isSome) ∧
    ((∀ p ∈ b, lookupRate c p.1 = none) →
      ∀ q ∈ (calculate_bitcoin_prices b c).result, q.2 = none) := by
  have hres := calculate_result_eq b c hc
  have hcol := filledRateColumn_eq b c hc
  have hlen := filledRateColumn_length b c hc
  refine ⟨hres, ?_, ?_⟩
  · intro hex q hq
    rw [hres] at hq
    obtain ⟨i, hi, hq⟩ := List.mem_iff_getElem.mp hq
    have hib : i < b.length := by
      rw [List.length_zipWith] at hi
      omega
    have hir : i < (filledRateColumn b c).length := by omega
    have hx : ∃ o ∈ b.map (fun p => lookupRate c p.1), o.isSome := by
      obtain ⟨p, hp, hs⟩ := hex
      exact ⟨lookupRate c p.1, List.mem_map_of_mem _ hp, hs⟩
    obtain ⟨v, hv⟩ := fill_entry_some (b.map (fun p => lookupRate c p.1)) hx i
      (by simpa using hib)
    have hv' : (filledRateColumn b c)[i] = some v := by
      have : (filledRateColumn b c)[i]? = some (some v) := by rw [hcol]; exact hv
      rw [List.getElem?_eq_getElem hir] at this
      exact Option.some.inj this
    rw [← hq, List.getElem_zipWith, hv']
    simp
  · intro hnone q hq
    rw [hres] at hq
    obtain ⟨i, hi, hq⟩ := List.mem_iff_getElem.mp hq
    have hib : i < b.length := by
      rw [List.length_zipWith] at hi
      omega
    have hir : i < (filledRateColumn b c).length := by omega
    have hx : ∀ o ∈ b.map (fun p => lookupRate c p.1), o = none := by
      intro o hm
      obtain ⟨p, hp, rfl⟩ := List.mem_map.mp hm
      exact hnone p hp
    have hv := fill_entry_none (b.map (fun p => lookupRate c p.1)) hx i (by simpa using hib)
    have hv' : (filledRateColumn b c)[i] = none := by
      have : (filledRateColumn b c)[i]? = some none := by rw [hcol]; exact hv
      rw [List.getElem?_eq_getElem hir] at this
      exact Option.some.inj this
    rw [← hq, List.getElem_zipWith, hv']
    rfl

/-- Counterexample to C3 as frozen: the rate series `[(2, 5)]` is
non-empty, yet for the Bitcoin series `[(1, 100)]` — whose only date has no
exact match — the merge of line 206 drops the unmatched rate row before any
filling, so the derived price is undefined, not defined as the claim
requires. -/
theorem c3_counterexample :
    (([((2:Date), (5:ℤ))] : List (Date × ℤ)) ≠ []) ∧
    (calculate_bitcoin_prices [((1:Date), (100:ℤ))] [((2:Date), (5:ℤ))]).result
      = [(1, none)] :=
  ⟨by decide, by decide⟩

/-- Witness for C3 (amended) at a one-row Bitcoin series whose date matches
the rate series exactly. -/
theorem c3_price_defined_iff_match_witness :
    ((([((1:Date), (7:ℤ))].map Prod.fst).Nodup ∧
        ∃ p ∈ [((1:Date), (100:ℤ))], (lookupRate [((1:Date), (7:ℤ))] p.1).isSome) ∧
      ∀ q ∈ (calculate_bitcoin_prices [((1:Date), (100:ℤ))] [((1:Date), (7:ℤ))]).result,
        q.2.isSome) :=
  ⟨⟨by decide, by decide⟩,
    (c3_price_defined_iff_match [((1:Date), (100:ℤ))] [((1:Date), (7:ℤ))]
      (by decide)).2.1 (by decide)⟩

theorem head?_filterMap_eq {β γ : Type} (l : List β) (g : β → Option γ) :
    (l.filterMap g).head? = ((l.filter (fun a => (g a).isSome)).head?).bind g := by
  induction l with
  | nil => rfl
  | cons a t ih =>
    cases hg : g a with
    | some v => simp [List.filterMap_cons, List.filter_cons, hg]
    | none => simpa [List.filterMap_cons, List.filter_cons, hg] using ih

theorem getLast?_filterMap_eq {β γ : Type} (l : List β) (g : β → Option γ) :
    (l.filterMap g).getLast? = ((l.filter (fun a => (g a).isSome)).getLast?).bind g := by
  rw [← List.head?_reverse (l.filterMap g), ← List.filterMap_reverse,
    head?_filterMap_eq, List.filter_reverse, List.head?_reverse]

theorem map_fst_filter {γ : Type} (p : Date → Bool) (l : List (Date × γ)) :
    (l.filter (fun r => p r.1)).map Prod.fst = (l.map Prod.fst).filter p := by
  induction l with
  | nil => rfl
  | cons a t ih => by_cases h : p a.1 <;> simp [List.filter_cons, h, ih]

theorem option_bind_map {β γ δ : Type} (o : Option β) (f : β → γ) (g : γ → Option δ) :
    (o.map f).bind g = o.bind (fun x => g (f x)) := by
  cases o <;> rfl

/-- In a strictly ascending date list, the dates lower than the `i`-th one
are exactly the first `i`. -/
theorem sorted_filter_lt (l : List Date) (hl : l.Pairwise (· < ·)) (i : Nat)
    (hi : i < l.length) :
    l.filter (fun x => decide (x < l[i])) = l.take i := by
  induction l generalizing i with
  | nil => simp at hi
  | cons a t ih =>
    rw [List.pairwise_cons] at hl
    cases i with
    | zero =>
      rw [List.take_zero, List.filter_eq_nil_iff]
      intro y hy
      simp only [List.getElem_cons_zero, decide_eq_true_eq]
      rcases List.mem_cons.mp hy with rfl | hyt
      · exact lt_irrefl y
      · exact not_lt_of_gt (hl.1 y hyt)
    | succ i =>
      have hi' : i < t.length := by simpa using hi
      simp only [List.getElem_cons_succ]
      have ha : a < t[i] := hl.1 _ (t.getElem_mem hi')
      rw [List.filter_cons, ih hl.2 i hi', List.take_succ_cons]
      simp [ha]

/-- The matched anchor dates are the dates of the anchor rows whose lookup
succeeds. -/
theorem matchedDates_eq_map {α : Type} (b c : List (Date × α)) :
    matchedDates b c =
      (b.filter (fun q => (lookupRate c q.1).isSome)).map Prod.fst := by
  rw [matchedDates]
  exact (map_fst_filter (fun d => (lookupRate c d).isSome) b).symm

/-- Date-order reading of the forward-fill part of the filled rate column:
at an anchor row with no exact match, the last present value of the column
prefix is the rate at the latest matched anchor date lower than this row's
date. -/
theorem olast_take_eq_prior {α : Type} (b c : List (Date × α))
    (hb : (b.map Prod.fst).Pairwise (· < ·)) (i : Nat) (hib : i < b.length)
    (hmiss : lookupRate c ((b[i]).1) = none) :
    olast ((b.map (fun q => lookupRate c q.1)).take (i+1)) =
      (((matchedDates b c).filter (fun x => decide (x < (b[i]).1))).getLast?).bind
        (lookupRate c) := by
  have hibm : i < (b.map Prod.fst).length := by simpa using hib
  have hxi : (b.map (fun q => lookupRate c q.1))[i]? = some none := by
    rw [List.getElem?_map, List.getElem?_eq_getElem hib]
    simp [hmiss]
  have h1 : olast ((b.map (fun q => lookupRate c q.1)).take (i+1)) =
      olast ((b.map (fun q => lookupRate c q.1)).take i) := by
    rw [List.take_succ, hxi]
    simp [olast, List.filterMap_append]
  have h6 : (matchedDates b c).filter (fun x => decide (x < (b[i]).1)) =
      ((b.take i).filter (fun q => (lookupRate c q.1).isSome)).map Prod.fst := by
    rw [map_fst_filter (fun d => (lookupRate c d).isSome) (b.take i), List.map_take,
      matchedDates]
    have hfst : (b[i]).1 = (b.map Prod.fst)[i] := by
      rw [List.getElem_map]
    rw [hfst, List.filter_filter,
      ← sorted_filter_lt (b.map Prod.fst) hb i (by simpa using hib), List.filter_filter]
    exact List.filter_congr (fun x _ => by rw [Bool.and_comm])
  rw [h1, h6, ← List.map_take, olast, List.filterMap_map, Function.id_comp,
    getLast?_filterMap_eq, List.getLast?_map, option_bind_map]

/-- Date-order reading of the backward-fill source: the first present value
of the whole rate column is the rate at the earliest matched anchor date. -/
theorem ofirst_eq_first_match {α : Type} (b c : List (Date × α)) :
    ofirst (b.map (fun q => lookupRate c q.1)) =
      ((matchedDates b c).head?).bind (lookupRate c) := by
  rw [matchedDates_eq_map, List.head?_map, option_bind_map, ofirst, List.filterMap_map,
    Function.id_comp, head?_filterMap_eq]

/-- When the whole column prefix is missing, the first present value after
the prefix is the first present value overall. -/
theorem ofirst_drop_of_olast_none {α : Type} (xs : List (Option α)) (i : Nat)
    (h : olast (xs.take (i+1)) = none) : ofirst (xs.drop (i+1)) = ofirst xs := by
  have hall := (olast_eq_none_iff _).mp h
  rw [ofirst, ofirst]
  conv_rhs => rw [← List.take_append_drop (i+1) xs]
  rw [List.filterMap_append]
  have hnil : (xs.take (i+1)).filterMap id = [] := by
    rw [List.filterMap_eq_nil_iff]
    intro o ho
    simpa using hall o ho
  rw [hnil, List.nil_append]

/-- In a frame with unique dates, filtering on the `i`-th row's date finds
exactly that row first. -/
theorem filter_key_head_of_nodup {γ : Type} (l : List (Date × γ))
    (hl : (l.map Prod.fst).Nodup) (i : Nat) (hi : i < l.length) :
    (l.filter (fun q => q.1 == (l[i]).1)).head? = some (l[i]) := by
  induction l generalizing i with
  | nil => simp at hi
  | cons a t ih =>
    rw [List.map_cons, List.nodup_cons] at hl
    cases i with
    | zero => simp [List.filter_cons]
    | succ i =>
      have hi' : i < t.length := by simpa using hi
      simp only [List.getElem_cons_succ]
      have hne : (a.1 == (t[i]).1) = false := by
        simp only [beq_eq_false_iff_ne]
        intro hEq
        exact hl.1 (hEq ▸ List.mem_map_of_mem Prod.fst (t.getElem_mem hi'))
      rw [List.filter_cons, hne]
      simpa using ih hl.2 i hi'

/-- Claim C2 (amended): for an anchor (Bitcoin) date with no exact-date
match in the rate series, the rate used is the rate of the *latest earlier
anchor date that has an exact-date match* (forward-fill happens after the
left merge, which drops rate rows at dates outside the anchor domain); when
no earlier anchor date matches, the rate of the *earliest matched anchor
date* is used (backward-fill); when no anchor date matches at all the price
stays undefined. -/
theorem c2_fill_policy {α : Type} [Mul α] (b c : List (Date × α))
    (hb : (b.map Prod.fst).Pairwise (· < ·)) (hc : (c.map Prod.fst).Nodup)
    (p : Date × α) (hp : p ∈ b) (hmiss : lookupRate c p.1 = none) :
    priceAt b c p.1 =
      (((((matchedDates b c).filter (fun x => decide (x < p.1))).getLast?).bind
            (lookupRate c)).or
          (((matchedDates b c).head?).bind (lookupRate c))).map (fun x => p.2 * x) := by
  obtain ⟨i, hib, hbi⟩ := List.mem_iff_getElem.mp hp
  subst hbi
  have hnb : (b.map Prod.fst).Nodup := hb.imp ne_of_lt
  have hres := calculate_result_eq b c hc
  have hlen := filledRateColumn_length b c hc
  have hcol := filledRateColumn_eq b c hc
  have hdates : (calculate_bitcoin_prices b c).result.map Prod.fst = b.map Prod.fst := by
    rw [hres]
    exact zipWith_keyed_map_fst _ b _ (le_of_eq hlen.symm)
  have hrlen : (calculate_bitcoin_prices b c).result.length = b.length := by
    have := congrArg List.length hdates
    simpa using this
  have hri : i < (calculate_bitcoin_prices b c).result.length := by omega
  have hxi : i < (b.map (fun q => lookupRate c q.1)).length := by simpa using hib
  have hflen2 : i < (filledRateColumn b c).length := by omega
  have hfe := bfill_ffill_getElem (b.map (fun q => lookupRate c q.1)) i hxi
  have h2 : (filledRateColumn b c)[i] =
      (olast ((b.map (fun q => lookupRate c q.1)).take (i+1))).or
        (ofirst ((b.map (fun q => lookupRate c q.1)).drop (i+1))) := by
    have hq : (filledRateColumn b c)[i]? =
        some ((olast ((b.map (fun q => lookupRate c q.1)).take (i+1))).or
          (ofirst ((b.map (fun q => lookupRate c q.1)).drop (i+1)))) := by
      rw [hcol]
      exact hfe
    rw [List.getElem?_eq_getElem hflen2] at hq
    exact Option.some.inj hq
  have hrow : (calculate_bitcoin_prices b c).result[i] =
      ((b[i]).1,
        ((olast ((b.map (fun q => lookupRate c q.1)).take (i+1))).or
          (ofirst ((b.map (fun q => lookupRate c q.1)).drop (i+1)))).map
            (fun x => (b[i]).2 * x)) := by
    have h1 : (calculate_bitcoin_prices b c).result[i]? =
        some ((b[i]).1,
          ((filledRateColumn b c)[i]).map (fun x => (b[i]).2 * x)) := by
      rw [hres, List.getElem?_eq_getElem (by rw [List.length_zipWith]; omega),
        List.getElem_zipWith]
    rw [List.getElem?_eq_getElem hri] at h1
    rw [Option.some.inj h1, h2]
  have hpa : priceAt b c ((b[i]).1) =
      (((calculate_bitcoin_prices b c).result[i]).2 : Option α) := by
    have hkey := filter_key_head_of_nodup (calculate_bitcoin_prices b c).result
      (hdates ▸ hnb) i hri
    have hfst : ((calculate_bitcoin_prices b c).result[i]).1 = (b[i]).1 := by
      rw [hrow]
    rw [priceAt, ← hfst, hkey]
    rfl
  rw [hpa, hrow]
  have hA := olast_take_eq_prior b c hb i hib hmiss
  cases hAc : olast ((b.map (fun q => lookupRate c q.1)).take (i+1)) with
  | some w =>
    rw [hAc] at hA
    rw [← hA]
    rfl
  | none =>
    rw [hAc] at hA
    have hB : ofirst ((b.map (fun q => lookupRate c q.1)).drop (i+1)) =
        ((matchedDates b c).head?).bind (lookupRate c) := by
      rw [ofirst_drop_of_olast_none _ i hAc, ofirst_eq_first_match b c]
    rw [← hA, hB]

/-- Counterexample to C2 as frozen: Bitcoin dates `[1, 3]`, rates only at
dates `1 ↦ 11` and `2 ↦ 12`. Date `3` has no exact match and its most
recent prior date *present in the rate series* is `2`, whose rate is `12`,
so the claim demands `102 * 12`; but the merge of line 206 drops the
unmatched rate row at date `2`, so the code forward-fills from date `1`
and produces `102 * 11 = 1122`. -/
theorem c2_counterexample :
    priceAt [((1:Date), (100:ℤ)), (3, 102)] [((1:Date), (11:ℤ)), (2, 12)] 3 = some 1122 ∧
    (([((1:Date), (11:ℤ)), (2, 12)].map Prod.fst).filter (fun x => decide (x < 3))).getLast?
      = some 2 ∧
    lookupRate [((1:Date), (11:ℤ)), (2, 12)] 2 = some 12 ∧
    (102:ℤ) * 12 ≠ 1122 :=
  ⟨by decide, by decide, by decide, by decide⟩

/-- Witness for C2 (amended): Bitcoin dates `[1, 2, 3]` with values
`[100, 101, 102]`, rates at `1 ↦ 11` and `3 ↦ 12`; the gap date `2` uses
the rate of the latest earlier matched anchor date `1`, so its price is
`101 * 11 = 1111`. -/
theorem c2_fill_policy_witness :
    priceAt [((1:Date), (100:ℤ)), (2, 101), (3, 102)] [((1:Date), (11:ℤ)), (3, 12)] 2
      = some 1111 :=
  (c2_fill_policy [((1:Date), (100:ℤ)), (2, 101), (3, 102)] [((1:Date), (11:ℤ)), (3, 12)]
    (by decide) (by decide) (2, 101) (by decide) (by decide)).trans (by decide)

/-- Claim C5 (code bug): the script means to report how many anchor dates
had an exact-date rate match (`actual_data`), but line 221 takes `isna` on
the rate column *after* `ffill` and `bfill`, so once any date matches, no
entry is missing any more and `actual_data` equals the total row count.
For Bitcoin dates `[1, 2]` and a rate series covering only date `1`, the
claim's count of exactly matched dates is `1`, yet the code reports
`actual_data = 2` (and `filledCount = 0`). -/
theorem c5_filled_count_bug :
    (calculate_bitcoin_prices [((1:Date), (100:ℤ)), (2, 101)] [((1:Date), (11:ℤ))]).actualData
        = 2 ∧
    (calculate_bitcoin_prices [((1:Date), (100:ℤ)), (2, 101)] [((1:Date), (11:ℤ))]).filledCount
        = 0 ∧
    (matchedDates [((1:Date), (100:ℤ)), (2, 101)] [((1:Date), (11:ℤ))]).length = 1 :=
  ⟨by decide, by decide, by decide⟩

/-- The head row a sorted frame's filter picks has the least timestamp among
the filtered rows. -/
theorem head_filter_min {α : Type} (l : List (Nat × α)) (p : Nat × α → Bool)
    (hsort : (l.map Prod.fst).Pairwise (· ≤ ·)) (x : Nat × α)
    (hx : (l.filter p).head? = some x) : ∀ y ∈ l.filter p, x.1 ≤ y.1 := by
  have hp : ((l.filter p).map Prod.fst).Pairwise (· ≤ ·) :=
    hsort.sublist ((List.filter_sublist l).map Prod.fst)
  intro y hy
  cases hf : l.filter p with
  | nil => rw [hf] at hy; simp at hy
  | cons a t =>
    rw [hf] at hx hy
    have hxa : a = x := Option.some.inj hx
    subst hxa
    rw [hf, List.map_cons, List.pairwise_cons] at hp
    rcases List.mem_cons.mp hy with rfl | hyt
    · exact le_refl _
    · exact hp.1 y.1 (List.mem_map_of_mem Prod.fst hyt)

theorem daily_map_fst {α : Type} (rows : List (Nat × α)) (days : List Date)
    (h : ∀ d ∈ days, rows.filter (fun r => dayOf r.1 == d) ≠ []) :
    ((days.filterMap
      (fun d => ((rows.filter (fun r => dayOf r.1 == d)).head?).map (fun r => (d, r.2)))).map
        Prod.fst) = days := by
  induction days with
  | nil => rfl
  | cons d t ih =>
    cases hf : rows.filter (fun r => dayOf r.1 == d) with
    | nil => exact absurd hf (h d (List.mem_cons_self d t))
    | cons r rt =>
      rw [List.filterMap_cons, hf]
      simp only [List.head?_cons, Option.map_some', List.map_cons]
      rw [ih (fun d' hd' => h d' (List.mem_cons_of_mem d hd'))]

/-- Claim C6: `load_bitcoin_daily` keeps exactly the calendar days present
in the raw rows, strictly ascending (hence exactly one entry per day), and
each day's value is the value of the first raw row of that day in original
file order — which, when the raw rows come in ascending time order, is a
chronologically-first observation of the day. -/
theorem c6_daily_reduction {α : Type} (rows : List (Nat × α)) :
    (∀ d, d ∈ (load_bitcoin_daily rows).map Prod.fst ↔ ∃ r ∈ rows, dayOf r.1 = d) ∧
    ((load_bitcoin_daily rows).map Prod.fst).Pairwise (· < ·) ∧
    (∀ q ∈ load_bitcoin_daily rows,
      ∃ r, (rows.filter (fun r' => dayOf r'.1 == q.1)).head? = some r ∧ q.2 = r.2 ∧
        ((rows.map Prod.fst).Pairwise (· ≤ ·) →
          ∀ r' ∈ rows, dayOf r'.1 = q.1 → r.1 ≤ r'.1)) := by
  haveI hTot : IsTotal (Date × α) (fun a b => a.1 ≤ b.1) := ⟨fun a b => Nat.le_total a.1 b.1⟩
  haveI hTrans : IsTrans (Date × α) (fun a b => a.1 ≤ b.1) :=
    ⟨fun _ _ _ h1 h2 => Nat.le_trans h1 h2⟩
  have hload : load_bitcoin_daily rows =
      ((((rows.map (fun r => dayOf r.1)).dedup).insertionSort (· ≤ ·)).filterMap
        (fun d => ((rows.filter (fun r => dayOf r.1 == d)).head?).map
          (fun r => (d, r.2)))).insertionSort (fun a b => a.1 ≤ b.1) := rfl
  have hdays_perm := List.perm_insertionSort (· ≤ ·) ((rows.map (fun r => dayOf r.1)).dedup)
  have hdays_mem : ∀ d,
      d ∈ ((rows.map (fun r => dayOf r.1)).dedup).insertionSort (· ≤ ·) ↔
        ∃ r ∈ rows, dayOf r.1 = d := by
    intro d
    rw [hdays_perm.mem_iff, List.mem_dedup, List.mem_map]
  have hne : ∀ d ∈ ((rows.map (fun r => dayOf r.1)).dedup).insertionSort (· ≤ ·),
      rows.filter (fun r => dayOf r.1 == d) ≠ [] := by
    intro d hd
    obtain ⟨r, hr, hrd⟩ := (hdays_mem d).mp hd
    refine List.ne_nil_of_mem (a := r) ?_
    rw [List.mem_filter]
    exact ⟨hr, by simpa using hrd⟩
  have hdaily := daily_map_fst rows _ hne
  have hdays_nd : (((rows.map (fun r => dayOf r.1)).dedup).insertionSort (· ≤ ·)).Nodup :=
    hdays_perm.nodup_iff.mpr (List.nodup_dedup _)
  have hdays_sorted : (((rows.map (fun r => dayOf r.1)).dedup).insertionSort (· ≤ ·)).Pairwise
      (· ≤ ·) := List.sorted_insertionSort _ _
  have hout_perm := List.perm_insertionSort (fun a b : Date × α => a.1 ≤ b.1)
    ((((rows.map (fun r => dayOf r.1)).dedup).insertionSort (· ≤ ·)).filterMap
      (fun d => ((rows.filter (fun r => dayOf r.1 == d)).head?).map (fun r => (d, r.2))))
  have hout_fst_perm : ((load_bitcoin_daily rows).map Prod.fst).Perm
      (((rows.map (fun r => dayOf r.1)).dedup).insertionSort (· ≤ ·)) := by
    rw [hload]
    have h1 := hout_perm.map Prod.fst
    rw [hdaily] at h1
    exact h1
  refine ⟨?_, ?_, ?_⟩
  · intro d
    rw [hout_fst_perm.mem_iff]
    exact hdays_mem d
  · have hnd : ((load_bitcoin_daily rows).map Prod.fst).Nodup :=
      hout_fst_perm.nodup_iff.mpr hdays_nd
    have hsorted : ((load_bitcoin_daily rows).map Prod.fst).Pairwise (· ≤ ·) := by
      rw [hload]
      exact List.pairwise_map.mpr (List.sorted_insertionSort _ _)
    exact (hsorted.and hnd).imp (fun h => lt_of_le_of_ne h.1 h.2)
  · intro q hq
    have hq' : q ∈ (((rows.map (fun r => dayOf r.1)).dedup).insertionSort (· ≤ ·)).filterMap
        (fun d => ((rows.filter (fun r => dayOf r.1 == d)).head?).map (fun r => (d, r.2))) := by
      rw [hload] at hq
      exact hout_perm.mem_iff.mp hq
    obtain ⟨d, _, hsome⟩ := List.mem_filterMap.mp hq'
    cases hh : (rows.filter (fun r => dayOf r.1 == d)).head? with
    | none => rw [hh] at hsome; simp at hsome
    | some r =>
      rw [hh] at hsome
      have hqd : q = (d, r.2) := by simpa using hsome.symm
      subst hqd
      refine ⟨r, hh, rfl, fun hsort r' hr' hday => ?_⟩
      refine head_filter_min rows _ hsort r hh r' ?_
      rw [List.mem_filter]
      exact ⟨hr', by simpa using hday⟩

/-- Witness for C6 at three raw rows, two of which share calendar day 0:
day 0 keeps the value of its first row. -/
theorem c6_daily_reduction_witness :
    ((0:Date), (5:ℤ)) ∈ load_bitcoin_daily [((0:Nat), (5:ℤ)), (10, 6), (86400, 7)] ∧
    ∃ r, ([((0:Nat), (5:ℤ)), (10, 6), (86400, 7)].filter
        (fun r' => dayOf r'.1 == (0:Date))).head? = some r ∧ (5:ℤ) = r.2 := by
  have h := (c6_daily_reduction [((0:Nat), (5:ℤ)), (10, 6), (86400, 7)]).2.2
    ((0:Date), (5:ℤ)) (by decide)
  obtain ⟨r, h1, h2, _⟩ := h
  exact ⟨by decide, r, h1, h2⟩

/-- Claim C7 (amended): `load_bitcoin_data_from_kaggle` accepts the
timestamp column only under the two exact spellings `"Timestamp"` and
`"timestamp"` (preferring the former), and aborts exactly when neither
exact spelling is present — not case-insensitively. -/
theorem c7_timestamp_exact_names (cols : List String) :
    (findTimestampColumn cols = none ↔ ("Timestamp" ∉ cols ∧ "timestamp" ∉ cols)) ∧
    ("Timestamp" ∈ cols → findTimestampColumn cols = some "Timestamp") ∧
    ("Timestamp" ∉ cols → "timestamp" ∈ cols →
      findTimestampColumn cols = some "timestamp") := by
  by_cases h1 : "Timestamp" ∈ cols <;> by_cases h2 : "timestamp" ∈ cols <;>
    simp [findTimestampColumn, h1, h2]

/-- Witness for C7 (amended) at a column list carrying `"Timestamp"`. -/
theorem c7_timestamp_exact_names_witness :
    findTimestampColumn ["Timestamp", "Close"] = some "Timestamp" :=
  (c7_timestamp_exact_names ["Timestamp", "Close"]).2.1 (by decide)

/-- Counterexample to C7 as frozen: `"TIMESTAMP"` is the name "timestamp"
under another capitalization, so the claim says the loader accepts it; but
lines 61–67 compare only against the exact spellings `"Timestamp"` and
`"timestamp"`, so the loader aborts (`none`). -/
theorem c7_counterexample :
    (∃ s ∈ ["TIMESTAMP", "Close"], strLower s = "timestamp") ∧
    findTimestampColumn ["TIMESTAMP", "Close"] = none :=
  ⟨⟨"TIMESTAMP", by decide, by decide⟩, by decide⟩

/-- Claim C9: the per-column rounding of `main` (lines 270–277) uses zero
decimal places exactly for the `JPY` and `KRW` columns and two decimal
places for every other supported currency column, and at the raw value
`12345.678` these render as `12346` and `12345.68` respectively. -/
theorem c9_rounding_law :
    (∀ x : ℚ, roundValue "BTC_JPY" x = roundTo 0 x) ∧
    (∀ x : ℚ, roundValue "BTC_KRW" x = roundTo 0 x) ∧
    (∀ code ∈ SUPPORTED_CURRENCIES, code ≠ "JPY" → code ≠ "KRW" →
      ∀ x : ℚ, roundValue ("BTC_" ++ code) x = roundTo 2 x) ∧
    roundTo 2 (12345678/1000 : ℚ) = 1234568/100 ∧
    roundTo 0 (12345678/1000 : ℚ) = 12346 := by
  refine ⟨fun x => rfl, fun x => rfl, ?_, ?_, ?_⟩
  · intro code hcode h1 h2
    fin_cases hcode
    · exact fun x => rfl
    · exact fun x => rfl
    · exact fun x => rfl
    · exact absurd rfl h1
    · exact fun x => rfl
    · exact fun x => rfl
    · exact fun x => rfl
    · exact fun x => rfl
    · exact fun x => rfl
    · exact fun x => rfl
    · exact absurd rfl h2
    · exact fun x => rfl
  · have hf : ⌊(12345678/1000 : ℚ) * 10 ^ 2⌋ = 1234567 := by
      rw [Int.floor_eq_iff]
      norm_num
    rw [roundTo, roundHalfEven, hf]
    norm_num
  · have hf : ⌊(12345678/1000 : ℚ) * 10 ^ 0⌋ = 12345 := by
      rw [Int.floor_eq_iff]
      norm_num
    rw [roundTo, roundHalfEven, hf]
    norm_num

/-- Witness for C9 at the two-decimal currency `EUR`. -/
theorem c9_rounding_law_witness :
    roundValue "BTC_EUR" (12345678/1000 : ℚ) = roundTo 2 (12345678/1000 : ℚ) :=
  c9_rounding_law.2.2.1 "EUR" (by decide) (by decide) (by decide) (12345678/1000 : ℚ)

/-- Claim C10: the rounding filter of line 272 accepts any column whose
name contains `"BTC_"`, in particular the base `BTC_USD` column, which is
then rounded to two decimal places like the other non-JPY/KRW columns. -/
theorem c10_btc_usd_rounded :
    shouldRound "BTC_USD" = true ∧
    (∀ x : ℚ, roundValue "BTC_USD" x = roundTo 2 x) ∧
    (∀ t : DF ℚ, t.cols.head? = some "BTC_USD" →
      ∀ p ∈ t.rows, ∃ q ∈ (roundDF t).rows, q.1 = p.1 ∧
        q.2.head? = (p.2.head?).map (fun ov => ov.map (roundTo 2))) := by
  refine ⟨rfl, fun x => rfl, ?_⟩
  intro t ht p hp
  refine ⟨(p.1, (t.cols.zip p.2).map
      (fun cv => if shouldRound cv.1 then cv.2.map (roundValue cv.1) else cv.2)),
    List.mem_map_of_mem _ hp, rfl, ?_⟩
  obtain ⟨ct, hct⟩ : ∃ ct, t.cols = "BTC_USD" :: ct := by
    cases hcols : t.cols with
    | nil => rw [hcols] at ht; simp at ht
    | cons a ctl =>
      rw [hcols] at ht
      have ha : a = "BTC_USD" := by simpa using ht
      exact ⟨ctl, by rw [ha]⟩
  cases hv : p.2 with
  | nil => simp [hct, hv]
  | cons v vt =>
    have hfun : roundValue "BTC_USD" = roundTo 2 := funext fun x => rfl
    have hsr : shouldRound "BTC_USD" = true := rfl
    simp [hct, hv, List.zip_cons_cons, hsr, hfun]

/-- Witness for C10 at a one-column, one-row frame. -/
theorem c10_btc_usd_rounded_witness :
    ∃ q ∈ (roundDF ⟨["BTC_USD"], [(1, [some (3/2 : ℚ)])]⟩).rows,
      q.1 = 1 ∧ q.2.head? = some (some (roundTo 2 (3/2 : ℚ))) := by
  have h := c10_btc_usd_rounded.2.2 ⟨["BTC_USD"], [(1, [some (3/2 : ℚ)])]⟩ rfl
    (1, [some (3/2 : ℚ)]) (by simp)
  obtain ⟨q, hq, h1, h2⟩ := h
  exact ⟨q, hq, h1, by simpa using h2⟩

theorem string_data_ext {s t : String} (h : s.data = t.data) : s = t := by
  cases s
  cases t
  rw [show ({ data := _ } : String).data = _ from rfl] at h
  exact congrArg String.mk h

theorem btcColNameInj {s t : String} (h : "BTC_" ++ s = "BTC_" ++ t) : s = t := by
  have hd := congrArg String.data h
  simp only [String.data_append] at hd
  exact string_data_ext (List.append_cancel_left hd)

/-- The column of the filterMap/zip pipeline of `process_currency_dataframe`
is the row-wise coercion `coerceRows`. -/
theorem zip_coerce_eq {α : Type} (parseD : String → Option Date) (parseN : String → Option α)
    (rows : List (List String)) :
    ((rows.map (fun r => r.head?.bind parseD)).zip
      (rows.map (fun r => (r.drop 1).head?.bind parseN))).filterMap
        (fun x => x.1.bind (fun d => x.2.map (fun v => (d, v)))) =
    coerceRows parseD parseN rows := by
  induction rows with
  | nil => rfl
  | cons r t ih =>
    rw [coerceRows, List.filterMap_cons, ← coerceRows, ← ih]
    rfl

/-- Claim C8 (amended): on a frame with at least two columns,
`process_currency_dataframe` succeeds and returns exactly the rows whose
first two cells both coerce, as (date, close-rate) pairs whatever the
original column names, sorted by date; the header handling strips exactly
the *first two rows* whenever the frame has more than two rows and its
first cell reads `"Ticker:"` — also when only one header row is present —
and strips nothing otherwise. -/
theorem c8_header_strip_and_coercion {α : Type} (parseD : String → Option Date)
    (parseN : String → Option α) (ncols : Nat) (rows : List (List String))
    (h2 : 2 ≤ ncols) :
    (process_currency_dataframe parseD parseN ncols rows =
      some ((coerceRows parseD parseN (stripTickerHeader rows)).insertionSort
        (fun a b => a.1 ≤ b.1))) ∧
    (2 < rows.length → rows.head?.bind List.head? = some "Ticker:" →
      stripTickerHeader rows = rows.drop 2) ∧
    (rows.head?.bind List.head? ≠ some "Ticker:" → stripTickerHeader rows = rows) := by
  refine ⟨?_, ?_, ?_⟩
  · rw [process_currency_dataframe, if_neg (by omega)]
    simp only
    rw [zip_coerce_eq]
  · intro hl hcell
    rw [stripTickerHeader, if_pos ⟨hl, hcell⟩]
  · intro hcell
    rw [stripTickerHeader, if_neg (fun hand => hcell hand.2)]

/-- Sample coercions for concrete frames: the cells `"d1"`/`"d2"` parse as
dates 1/2 and `"v1"`/`"v2"` as rates 10/20; every other cell fails, the way
pandas coercion fails on non-date, non-numeric text. -/
def parseDEx (s : String) : Option Date :=
  if s = "d1" then some 1 else if s = "d2" then some 2 else none

/-- Rate-cell counterpart of `parseDEx`. -/
def parseNEx (s : String) : Option ℤ :=
  if s = "v1" then some 10 else if s = "v2" then some 20 else none

/-- Witness for C8 (amended) at a frame with the full two-row ticker header
and two unordered data rows. -/
theorem c8_header_strip_and_coercion_witness :
    process_currency_dataframe parseDEx parseNEx 2
        [["Ticker:", "EUR"], ["Date", "Close"], ["d2", "v2"], ["d1", "v1"]]
      = some [(1, (10:ℤ)), (2, 20)] :=
  ((c8_header_strip_and_coercion parseDEx parseNEx 2
    [["Ticker:", "EUR"], ["Date", "Close"], ["d2", "v2"], ["d1", "v1"]]
    (by decide)).1).trans (by decide)

/-- Counterexample to C8 as frozen: a frame prefixed by exactly *one*
non-data header row whose first cell reads `"Ticker:"`, followed by two
data rows. The claim says exactly the header row is stripped, so both data
rows survive coercion; but lines 170–171 always drop two rows once the
ticker cell is seen, so the first data row `("d1", "v1")` is lost as well. -/
theorem c8_counterexample :
    process_currency_dataframe parseDEx parseNEx 2
        [["Ticker:", "EUR"], ["d1", "v1"], ["d2", "v2"]]
      = some [(2, (20:ℤ))] ∧
    (coerceRows parseDEx parseNEx
        ([["Ticker:", "EUR"], ["d1", "v1"], ["d2", "v2"]].drop 1)).insertionSort
          (fun a b => a.1 ≤ b.1)
      = [(1, (10:ℤ)), (2, 20)] ∧
    some [(2, (20:ℤ))] ≠ some [(1, (10:ℤ)), (2, 20)] :=
  ⟨by decide, by decide, by decide⟩

theorem main_table_cols_aux {α : Type} [Mul α] (bitcoin : List (Date × α))
    (dict : String → Option (List (Date × α))) (codes : List String) (acc : DF α) :
    (codes.foldl (fun acc code =>
      if code = "USD" then acc
      else
        match dict code with
        | none => acc
        | some cdf =>
            mergeLeftCol acc ("BTC_" ++ code) (calculate_bitcoin_prices bitcoin cdf).result)
      acc).cols
    = acc.cols ++ (codes.filter
        (fun code => (code != "USD") && (dict code).isSome)).map (fun code => "BTC_" ++ code) := by
  induction codes generalizing acc with
  | nil => simp
  | cons code t ih =>
    rw [List.foldl_cons, List.filter_cons]
    by_cases hu : code = "USD"
    · simp [hu, ih]
    · cases hd : dict code with
      | none => simp [hu, hd, ih]
      | some cdf =>
        simp [hu, hd, ih]
        simp [mergeLeftCol]

/-- The column list `main` assembles: `BTC_USD` first, then `BTC_<code>`
for every supported non-USD currency present in the loaded dictionary, in
the fixed supported order. -/
theorem main_table_cols {α : Type} [Mul α] (bitcoin : List (Date × α))
    (dict : String → Option (List (Date × α))) :
    (main_table bitcoin dict).cols =
      "BTC_USD" :: (SUPPORTED_CURRENCIES.filter
        (fun code => (code != "USD") && (dict code).isSome)).map (fun code => "BTC_" ++ code) := by
  rw [main_table, main_table_cols_aux]
  rfl

theorem file_codes_supported {code : String} (h : code ∈ CURRENCY_FILE_CODES) :
    code ∈ SUPPORTED_CURRENCIES ∧ code ≠ "USD" := by
  fin_cases h <;> exact ⟨by decide, by decide⟩

/-- Presence of a currency's column in the assembled frame is equivalent to
its presence in the loaded dictionary. -/
theorem mem_btc_cols_iff {α : Type} [Mul α] (bitcoin : List (Date × α))
    (dict : String → Option (List (Date × α))) (code : String)
    (hS : code ∈ SUPPORTED_CURRENCIES) (hU : code ≠ "USD") :
    ("BTC_" ++ code) ∈ (main_table bitcoin dict).cols ↔ (dict code).isSome = true := by
  rw [main_table_cols, List.mem_cons]
  constructor
  · rintro (heq | hmem)
    · exfalso
      apply hU
      apply btcColNameInj
      rw [heq]
      decide
    · obtain ⟨c2, hc2, heq⟩ := List.mem_map.mp hmem
      obtain ⟨_, hp⟩ := List.mem_filter.mp hc2
      rw [btcColNameInj heq] at hp
      simpa [hU] using hp
  · intro hd
    right
    rw [List.mem_map]
    refine ⟨code, ?_, rfl⟩
    rw [List.mem_filter]
    exact ⟨hS, by simp [hU, hd]⟩

/-- Claim C4 (amended): for a currency with a known source file, the
`BTC_<code>` column appears in the assembled output exactly when the loader
kept the currency, which happens exactly when its file is present and
`process_currency_dataframe` does not raise — *a readable file that yields
zero valid rows still produces an (empty) frame, so its column appears*;
and changing one currency's file never affects whether another currency's
column appears. -/
theorem c4_currency_columns {α : Type} [Mul α] (parseD : String → Option Date)
    (parseN : String → Option α) (files : String → Option (Nat × List (List String)))
    (bitcoin : List (Date × α)) (code : String) (hcode : code ∈ CURRENCY_FILE_CODES) :
    (("BTC_" ++ code) ∈ (main_table bitcoin (load_currency_data parseD parseN files)).cols ↔
      (load_currency_data parseD parseN files code).isSome = true) ∧
    ((load_currency_data parseD parseN files code).isSome = true ↔
      ∃ raw, files code = some raw ∧
        (process_currency_dataframe parseD parseN raw.1 raw.2).isSome = true) ∧
    (∀ files' : String → Option (Nat × List (List String)),
      (∀ c2, c2 ≠ code → files' c2 = files c2) →
      ∀ code2, code2 ∈ CURRENCY_FILE_CODES → code2 ≠ code →
        ((("BTC_" ++ code2) ∈
            (main_table bitcoin (load_currency_data parseD parseN files')).cols) ↔
          (("BTC_" ++ code2) ∈
            (main_table bitcoin (load_currency_data parseD parseN files)).cols))) := by
  obtain ⟨hS, hU⟩ := file_codes_supported hcode
  refine ⟨mem_btc_cols_iff bitcoin _ code hS hU, ?_, ?_⟩
  · rw [load_currency_data]
    simp only [if_pos hcode]
    cases hf : files code with
    | none => simp [hf]
    | some raw => simp [hf]
  · intro files' hagree code2 hcode2 hne
    obtain ⟨hS2, hU2⟩ := file_codes_supported hcode2
    rw [mem_btc_cols_iff bitcoin _ code2 hS2 hU2, mem_btc_cols_iff bitcoin _ code2 hS2 hU2]
    have : load_currency_data parseD parseN files' code2
        = load_currency_data parseD parseN files code2 := by
      rw [load_currency_data, load_currency_data]
      simp only [hagree code2 hne]
    rw [this]

/-- Witness for C4 (amended): with no files at all, `BTC_GBP` is absent. -/
theorem c4_currency_columns_witness :
    ("BTC_" ++ "GBP") ∈ (main_table [((1:Date), (100:ℤ))]
        (load_currency_data parseDEx parseNEx (fun _ => none))).cols ↔
      (load_currency_data parseDEx parseNEx (fun _ => none) "GBP").isSome = true :=
  (c4_currency_columns parseDEx parseNEx (fun _ => none) [((1:Date), (100:ℤ))] "GBP"
    (by decide)).1

/-- Counterexample to C4 as frozen: the EUR file is readable (three rows,
two columns) but every cell fails coercion, so processing yields zero valid
rows — yet it returns an *empty frame*, not `None`, so the loader keeps EUR
and `main` still emits a `BTC_EUR` column (with no values), contradicting
the claimed omission. -/
theorem c4_counterexample :
    process_currency_dataframe parseDEx parseNEx 2 [["a", "b"], ["c", "d"], ["e", "f"]]
      = some [] ∧
    "BTC_EUR" ∈ (main_table [((1:Date), (100:ℤ))]
      (load_currency_data parseDEx parseNEx
        (fun code =>
          if code = "EUR" then some (2, [["a", "b"], ["c", "d"], ["e", "f"]]) else none))).cols :=
  ⟨by decide, by decide⟩
